import Mathlib

/-!
Shallow embedding of the gnosis-safe-sdk-rs proposal pipeline
(`src/api.rs`, `src/api/client.rs`, `src/api/types.rs`, `src/api/wrappers.rs`,
`src/transaction.rs`), together with theorems settling the frozen claims
about the repository's specification.

Machine integers (`u64`, `u128`, `U256`) are modelled as `Nat` with explicit
`% 2^w` or `< 2^w` bounds exactly where the Rust code can overflow or panic;
fallible Rust code (`Result`, serde errors, panics inside infallible
signatures) is modelled with `Option`/`Except`.
-/

namespace SafeSdk

/-! ### Service model and nonce seeding (`SafeClient` in `src/api/client.rs`) -/

/-- State of the remote Safe transaction service for one safe: the
on-chain nonce reported by `v1/safes/{addr}/` and the nonces of all
multisig transactions stored by the service. -/
structure ServiceState where
  nonce : Nat
  txNonces : List Nat
deriving DecidableEq

/-- Result of `SafeClient::pending`: the service answers the query
`multisig-transactions/?nonce__gte={nonce}` with the stored transactions
whose nonce is at least the current on-chain nonce. -/
def pendingOf (svc : ServiceState) : List Nat :=
  svc.txNonces.filter (fun n => svc.nonce ≤ n)

/-- Maximum of a list of nonces; mirrors `Iterator::max` on the (guarded
non-empty) pending list, where `Nat` makes the fold base `0` harmless. -/
def maxOf (l : List Nat) : Nat := l.foldr max 0

/-- Embedding of `SafeClient::next_nonce`: if the pending list is non-empty
return `max(pending) + 1`, otherwise return the service-reported nonce. -/
def nextNonceOf (svc : ServiceState) : Nat :=
  if pendingOf svc = [] then svc.nonce else maxOf (pendingOf svc) + 1

/-- Initialization failures of `SafeClient::new`: either remote fetch can
fail and is propagated with `?`. -/
inductive FetchError where
  | infoFailed
  | pendingFailed
deriving DecidableEq

/-- Embedding of `SafeClient::safe_info` as a fallible fetch: `infoOk`
says whether the HTTP exchange succeeds. -/
def safeInfoFetch (infoOk : Bool) (svc : ServiceState) : Except FetchError Nat :=
  if infoOk then .ok svc.nonce else .error .infoFailed

/-- Embedding of `SafeClient::pending`: first re-fetches the safe info to
obtain the filter bound, then fetches the filtered transaction list. -/
def pendingFetch (infoOk pendOk : Bool) (svc : ServiceState) :
    Except FetchError (List Nat) := do
  let bound ← safeInfoFetch infoOk svc
  if pendOk then .ok (svc.txNonces.filter (fun n => bound ≤ n))
  else .error .pendingFailed

/-- Embedding of `SafeClient::next_nonce` over the fallible fetches: the
metadata fetch and the pending fetch are sequential prerequisites. -/
def nextNonceFetch (infoOk pendOk : Bool) (svc : ServiceState) :
    Except FetchError Nat := do
  let reported ← safeInfoFetch infoOk svc
  let pending ← pendingFetch infoOk pendOk svc
  if pending = [] then pure reported else pure (maxOf pending + 1)

/-- The in-memory state of a constructed `SafeClient`: the atomic nonce
counter (an `AtomicU64`, value kept below `2^64`). -/
structure SafeClientState where
  nonce : Nat
deriving DecidableEq

/-- Embedding of `SafeClient::new`: computes `next_nonce` from the two
fetches and stores it; any fetch error propagates and no client value is
produced. -/
def newClient (infoOk pendOk : Bool) (svc : ServiceState) :
    Except FetchError SafeClientState := do
  let n ← nextNonceFetch infoOk pendOk svc
  pure ⟨n⟩

/-! ### Nonce allocation (`SafeClient::safe_tx_builder`) -/

/-- Modulus of the `AtomicU64` nonce counter. -/
def U64LIM : Nat := 2 ^ 64

/-- Embedding of `AtomicU64::fetch_add(1, Relaxed)`: returns the old value
and the new stored value (wrapping at `2^64`). -/
def fetchAddOne (c : Nat) : Nat × Nat := (c, (c + 1) % U64LIM)

/-- The constant `SafeClient::chain_id` (the client is mainnet only). -/
def chainIdOf : Nat := 1

/-- Modelled from the spec: `SafeTransactionBuilder` lives in `src/safe.rs`
which is not part of the sources; per §4.3 it is a carrier seeded with a
transaction, a chain id, a safe identity and a nonce.  Only the fields
seeded by `SafeClient::safe_tx_builder` are modelled. -/
structure SafeTxBuilder where
  chainId : Nat
  safeAddress : List Nat
  nonce : Nat
deriving DecidableEq

/-- Embedding of `SafeClient::safe_tx_builder`: fetch-and-add on the
counter, seeding the returned builder with the old counter value, the
constant chain id and the safe address; returns the new counter too. -/
def safeTxBuilder (safeAddress : List Nat) (c : Nat) : SafeTxBuilder × Nat :=
  let r := fetchAddOne c
  (⟨chainIdOf, safeAddress, r.1⟩, r.2)

/-- Iterated allocation: the values returned by `n` successive
`safe_tx_builder` calls and the final counter. -/
def allocRun (c : Nat) : Nat → List Nat × Nat
  | 0 => ([], c)
  | n + 1 =>
    let r := fetchAddOne c
    let rest := allocRun r.2 n
    (r.1 :: rest.1, rest.2)

/-- The public operations of `SafeClient`. -/
inductive ClientOp where
  | mkBuilder
  | safeInfo
  | proposeTx
  | pendingTxs
  | nextNonceOp
deriving DecidableEq

/-- Effect of each public client operation on the nonce counter: only
`safe_tx_builder` touches it (fetch-and-add); the network operations leave
it unchanged. -/
def counterAfter : ClientOp → Nat → Nat
  | .mkBuilder, c => (c + 1) % U64LIM
  | .safeInfo, c => c
  | .proposeTx, c => c
  | .pendingTxs, c => c
  | .nextNonceOp, c => c

/-! ### Wire codec: hex encoding of hashes (`src/api/wrappers.rs`) -/

/-- Lowercase hex digit character for a nibble (`hex::encode` alphabet). -/
def hexCharLower (n : Nat) : Char :=
  if n < 10 then Char.ofNat (48 + n) else Char.ofNat (87 + n)

/-- Two lowercase hex characters for one byte. -/
def byteToHex (b : Nat) : List Char := [hexCharLower (b / 16), hexCharLower (b % 16)]

/-- Embedding of `hex::encode`: lowercase hex of a byte string. -/
def bytesToHex (bs : List Nat) : List Char := (bs.map byteToHex).flatten

/-- Value of a hex digit character; `hex::decode` accepts both cases and
rejects everything else. -/
def hexDigitVal (c : Char) : Option Nat :=
  if 48 ≤ c.toNat ∧ c.toNat ≤ 57 then some (c.toNat - 48)
  else if 97 ≤ c.toNat ∧ c.toNat ≤ 102 then some (c.toNat - 87)
  else if 65 ≤ c.toNat ∧ c.toNat ≤ 70 then some (c.toNat - 55)
  else none

/-- Embedding of `hex::decode`: pairs of hex digits to bytes, failing on an
odd-length input or any non-hex character. -/
def hexPairsToBytes : List Char → Option (List Nat)
  | [] => some []
  | [_] => none
  | c1 :: c2 :: rest => do
    let hi ← hexDigitVal c1
    let lo ← hexDigitVal c2
    let bs ← hexPairsToBytes rest
    pure ((16 * hi + lo) :: bs)

/-- Embedding of `s.strip_prefix("0x").unwrap_or(&s)`. -/
def strip0x (s : List Char) : List Char :=
  match s with
  | '0' :: 'x' :: rest => rest
  | _ => s

/-- Embedding of `hex_encode_hash` (`src/api/wrappers.rs`): `0x` followed
by the lowercase hex of the 32 bytes. -/
def hexEncodeHash (h : List Nat) : List Char := '0' :: 'x' :: bytesToHex h

/-- Embedding of `hex_decode_hash` (`src/api/wrappers.rs`): strip an
optional `0x`, hex-decode, and reject any payload that is not exactly 32
bytes. -/
def hexDecodeHash (s : List Char) : Option (List Nat) := do
  let bytes ← hexPairsToBytes (strip0x s)
  if bytes.length = 32 then pure bytes else none

/-- A character is a lowercase hex digit. -/
def isLowerHexDigit (c : Char) : Prop :=
  (48 ≤ c.toNat ∧ c.toNat ≤ 57) ∨ (97 ≤ c.toNat ∧ c.toNat ≤ 102)

instance (c : Char) : Decidable (isLowerHexDigit c) := by
  unfold isLowerHexDigit; infer_instance

/-! ### Keccak-256 (the hash behind `ethers::utils::to_checksum`) -/

/-- Left rotation of a 64-bit lane. -/
def rotl64 (x n : Nat) : Nat := ((x <<< n) % U64LIM) ||| (x >>> (64 - n))

/-- Bitwise complement of a 64-bit lane. -/
def not64 (x : Nat) : Nat := x ^^^ (U64LIM - 1)

/-- Rho rotation offset of the lane at index `x + 5*y`. -/
def rhoOff : Nat → Nat
  | 0 => 0
  | 1 => 1
  | 2 => 62
  | 3 => 28
  | 4 => 27
  | 5 => 36
  | 6 => 44
  | 7 => 6
  | 8 => 55
  | 9 => 20
  | 10 => 3
  | 11 => 10
  | 12 => 43
  | 13 => 25
  | 14 => 39
  | 15 => 41
  | 16 => 45
  | 17 => 15
  | 18 => 21
  | 19 => 8
  | 20 => 18
  | 21 => 2
  | 22 => 61
  | 23 => 56
  | 24 => 14
  | _ => 0

/-- Keccak-f[1600] iota round constants (written in decimal). -/
def roundConstants : List Nat :=
  [1,
   32898,
   9223372036854808714,
   9223372039002292224,
   32907,
   2147483649,
   9223372039002292353,
   9223372036854808585,
   138,
   136,
   2147516425,
   2147483658,
   2147516555,
   9223372036854775947,
   9223372036854808713,
   9223372036854808579,
   9223372036854808578,
   9223372036854775936,
   32778,
   9223372039002259466,
   9223372039002292353,
   9223372036854808704,
   2147483649,
   9223372039002292232]

/-- Lane `i` of a 25-lane state. -/
def lane (st : List Nat) (i : Nat) : Nat := st.getD i 0

/-- Theta step of Keccak-f. -/
def theta (st : List Nat) : List Nat :=
  let c := List.ofFn (fun x : Fin 5 =>
    lane st x.val ^^^ lane st (x.val + 5) ^^^ lane st (x.val + 10) ^^^
      lane st (x.val + 15) ^^^ lane st (x.val + 20))
  let d := List.ofFn (fun x : Fin 5 =>
    lane c ((x.val + 4) % 5) ^^^ rotl64 (lane c ((x.val + 1) % 5)) 1)
  List.ofFn (fun i : Fin 25 => lane st i.val ^^^ lane d (i.val % 5))

/-- Combined rho rotation and pi permutation of Keccak-f. -/
def rhoPi (st : List Nat) : List Nat :=
  List.ofFn (fun j : Fin 25 =>
    let x := (j.val % 5 + 3 * (j.val / 5)) % 5
    let y := j.val % 5
    rotl64 (lane st (x + 5 * y)) (rhoOff (x + 5 * y)))

/-- Chi step of Keccak-f. -/
def chi (b : List Nat) : List Nat :=
  List.ofFn (fun j : Fin 25 =>
    let x := j.val % 5
    let y := j.val / 5
    lane b j.val ^^^ (not64 (lane b ((x + 1) % 5 + 5 * y)) &&& lane b ((x + 2) % 5 + 5 * y)))

/-- Iota step of Keccak-f. -/
def iotaStep (rc : Nat) (st : List Nat) : List Nat := st.set 0 (lane st 0 ^^^ rc)

/-- One round of Keccak-f[1600]. -/
def keccakRound (st : List Nat) (rc : Nat) : List Nat := iotaStep rc (chi (rhoPi (theta st)))

/-- The full 24-round Keccak-f[1600] permutation. -/
def keccakF (st : List Nat) : List Nat := roundConstants.foldl keccakRound st

/-- Little-endian bytes to a 64-bit lane. -/
def leBytesToLane (bs : List Nat) : Nat := bs.foldr (fun b acc => b + 256 * acc) 0

/-- Lane `i` of a 136-byte rate block. -/
def blockLane (block : List Nat) (i : Nat) : Nat := leBytesToLane ((block.drop (8 * i)).take 8)

/-- XOR a rate block into the first 17 lanes of the state. -/
def xorBlock (st block : List Nat) : List Nat :=
  List.ofFn (fun i : Fin 25 =>
    lane st i.val ^^^ (if i.val < 17 then blockLane block i.val else 0))

/-- Original Keccak multi-rate padding with domain bit `0x01` (as used by
Ethereum's keccak256), rate 136 bytes. -/
def padKeccak (msg : List Nat) : List Nat :=
  let padLen := 136 - msg.length % 136
  if padLen = 1 then msg ++ [0x81]
  else msg ++ 0x01 :: (List.replicate (padLen - 2) 0 ++ [0x80])

/-- Split a padded message into 136-byte rate blocks. -/
def chunks136 (l : List Nat) : List (List Nat) :=
  if h : l = [] then [] else l.take 136 :: chunks136 (l.drop 136)
termination_by l.length
decreasing_by
  simp only [List.length_drop]
  have : 0 < l.length := List.length_pos.mpr h
  omega

/-- The all-zero initial sponge state. -/
def initState : List Nat := List.replicate 25 0

/-- Absorb all rate blocks into the sponge. -/
def keccakAbsorb (blocks : List (List Nat)) : List Nat :=
  blocks.foldl (fun st block => keccakF (xorBlock st block)) initState

/-- Little-endian bytes of a 64-bit lane. -/
def laneToBytes (v : Nat) : List Nat := List.ofFn (fun i : Fin 8 => v / 256 ^ i.val % 256)

/-- Keccak-256 of a byte string: absorb, then squeeze the first 32 bytes. -/
def keccak256 (msg : List Nat) : List Nat :=
  ((keccakAbsorb (chunks136 (padKeccak msg))).map laneToBytes).flatten.take 32

/-! ### Checksummed addresses (`ChecksumAddress` in `src/api/wrappers.rs`) -/

/-- Embedding of `u8::to_ascii_uppercase` (only letters move). -/
def toUpperHexChar (c : Char) : Char :=
  if 97 ≤ c.toNat ∧ c.toNat ≤ 122 then Char.ofNat (c.toNat - 32) else c

/-- The nibble stream of a hash, high nibble of each byte first; nibble
`i` is at least 8 exactly when the `i`-th hex character of the hash's hex
encoding is at least ASCII `'8'`, the test `ethers::utils::to_checksum`
makes. -/
def hashNibbles (bs : List Nat) : List Nat := (bs.map (fun b => [b / 16, b % 16])).flatten

/-- Case selection of `to_checksum`: uppercase the hex character when the
matching hash nibble is at least 8 (the `*hash >= 56` test on the hash's
hex ASCII). -/
def chkCase (c : Char) (h : Nat) : Char := if 8 ≤ h then toUpperHexChar c else c

/-- Embedding of `ethers::utils::to_checksum` with `chain_id = None`:
`0x` plus the lowercase hex of the address, each character uppercased when
the matching nibble of `keccak256(lowercase hex ASCII)` is at least 8. -/
def toChecksum (addr : List Nat) : List Char :=
  let addrHex := bytesToHex addr
  let nibs := hashNibbles (keccak256 (addrHex.map Char.toNat))
  '0' :: 'x' :: List.zipWith chkCase addrHex nibs

/-- Embedding of `Address::deserialize` (`impl-serde` for `H160`): requires
a `0x` prefix and exactly 40 hex digits, accepts both cases, and performs
no checksum validation. -/
def decodeAddress (s : List Char) : Option (List Nat) :=
  match s with
  | '0' :: 'x' :: rest => do
    let bytes ← hexPairsToBytes rest
    if bytes.length = 20 then pure bytes else none
  | _ => none

/-- Flip the case of an ASCII letter; other characters are unchanged. -/
def flipCase (c : Char) : Char :=
  if 97 ≤ c.toNat ∧ c.toNat ≤ 122 then Char.ofNat (c.toNat - 32)
  else if 65 ≤ c.toNat ∧ c.toNat ≤ 90 then Char.ofNat (c.toNat + 32)
  else c

/-- Flip the case of the character at position `i`. -/
def flipCaseAt (i : Nat) (s : List Char) : List Char :=
  s.set i (flipCase (s.getD i ' '))

/-- Fixed address `0xaa00…00` used as the concrete checksum fixture (its
first two hex digits are letters, so a case flip changes the string). -/
def caddr : List Nat := 170 :: List.replicate 19 0

/-! ### Proposal requests and their JSON wire form (`src/api/types.rs`) -/

/-- Embedding of the `Operation` enum (`CALL = 0`, `DELEGATE = 1`). -/
inductive Operation where
  | CALL
  | DELEGATE
deriving DecidableEq

/-- The `u8` discriminant serialized for an operation. -/
def opValue : Operation → Nat
  | .CALL => 0
  | .DELEGATE => 1

/-- Embedding of the `ProposeRequest` struct: addresses are 20-byte
strings, the `u128` fields are `Nat` (values below `2^128` in the code),
`data` is the raw byte string, the hash is 32 bytes. -/
structure ProposeRequest where
  safe : List Nat
  toAddr : List Nat
  value : Nat
  data : List Nat
  operation : Operation
  gasToken : List Nat
  safeTxGas : Nat
  baseGas : Nat
  gasPrice : Nat
  nonce : Nat
  contractTransactionHash : List Nat
  sender : List Nat
  signature : List Char
deriving DecidableEq

/-- A primitive JSON value as produced for one `ProposeRequest` field:
`serde_json` renders `u128`/`u8` as JSON numbers and the wrapper types as
JSON strings. -/
inductive JsonVal where
  | num (n : Nat)
  | str (s : List Char)
deriving DecidableEq

/-- Embedding of `serde_json::to_string(&ProposeRequest)` as the ordered
field list of the produced JSON object: `rename_all = "camelCase"` keys
in declaration order; `ChecksumAddress` serializes via `to_checksum`,
`Bytes` as `0x`-hex, `Operation` as its `u8` value, `Hash` via
`hex_encode_hash`, and the `u128` fields as JSON numbers. -/
def serializeProposeRequest (r : ProposeRequest) : List (String × JsonVal) :=
  [("safe", .str (toChecksum r.safe)),
   ("to", .str (toChecksum r.toAddr)),
   ("value", .num r.value),
   ("data", .str ('0' :: 'x' :: bytesToHex r.data)),
   ("operation", .num (opValue r.operation)),
   ("gasToken", .str (toChecksum r.gasToken)),
   ("safeTxGas", .num r.safeTxGas),
   ("baseGas", .num r.baseGas),
   ("gasPrice", .num r.gasPrice),
   ("nonce", .num r.nonce),
   ("contractTransactionHash", .str (hexEncodeHash r.contractTransactionHash)),
   ("sender", .str (toChecksum r.sender)),
   ("signature", .str r.signature)]

/-- Modelled from the spec: `SignedSafePayload<T>` and `SafeTransaction`
live in `src/safe.rs`, which is not among the sources; the fields here are
exactly the ones the `TryFrom` impl in `src/api/types.rs` destructures
(`payload.tx` flattened through the `Transactionable` trait of
`src/transaction.rs`), with `U256` fields as `Nat` and the EIP-712 digest
(`payload.encode_eip712()`) carried as a precomputed 32-byte field. -/
structure SignedSafePayload where
  txTo : List Nat
  txValue : Nat
  txCalldata : Option (List Nat)
  operation : Operation
  safeTxGas : Nat
  baseGas : Nat
  gasPrice : Nat
  gasToken : List Nat
  nonce : Nat
  safeAddress : List Nat
  eip712Hash : List Nat
  sender : List Nat
  signature : List Char
deriving DecidableEq

/-- Embedding of `U256::as_u128`: the panic on values of 128 bits or more
is modelled as `none`. -/
def asU128 (n : Nat) : Option Nat := if n < 2 ^ 128 then some n else none

/-- Embedding of `TryFrom<SignedSafePayload<T>> for ProposeRequest`
(`src/api/types.rs`): field-by-field conversion in the evaluation order of
the Rust struct literal; every `U256` numeric field goes through
`as_u128`. -/
def tryFromSigned (p : SignedSafePayload) : Option ProposeRequest := do
  let value ← asU128 p.txValue
  let safeTxGas ← asU128 p.safeTxGas
  let baseGas ← asU128 p.baseGas
  let nonce ← asU128 p.nonce
  let gasPrice ← asU128 p.gasPrice
  pure ⟨p.safeAddress, p.txTo, value, p.txCalldata.getD [], p.operation, p.gasToken,
    safeTxGas, baseGas, gasPrice, nonce, p.eip712Hash, p.sender, p.signature⟩

/-- The fixture request used by the wire-encoding counterexample. -/
def r0 : ProposeRequest :=
  ⟨List.replicate 20 0, List.replicate 20 0, 1, [], .CALL, List.replicate 20 0,
    2, 3, 4, 7, List.replicate 32 0, List.replicate 20 0, []⟩

/-- The fixture payload whose value field does not fit in 128 bits. -/
def pBig : SignedSafePayload :=
  ⟨List.replicate 20 0, 2 ^ 128, none, .CALL, 0, 0, 0, List.replicate 20 0, 0,
    List.replicate 20 0, List.replicate 32 0, List.replicate 20 0, []⟩

/-! ### HTTP submission (`json_post!` in `src/api.rs`) -/

/-- An HTTP response as observed by the `json_post!` macro. -/
structure HttpResponse where
  status : Nat
  body : String
deriving DecidableEq

/-- Embedding of `reqwest::StatusCode::is_success` (2xx). -/
def isSuccessStatus (s : Nat) : Bool := decide (200 ≤ s) && decide (s ≤ 299)

/-- Embedding of the `json_post!` macro (`src/api.rs`): exactly one POST is
made; a non-success status yields
`Err(anyhow!("Unexpected response from server"))` — the status code and
the response body are only emitted to the `tracing` log, not placed in the
returned error value. -/
def jsonPost (resp : HttpResponse) : Except String Unit :=
  if isSuccessStatus resp.status then .ok () else .error "Unexpected response from server"

/-! ### Signature aggregation (modelled from the spec) -/

/-- Modelled from the spec: a Signature Record — a signer address (its
20 bytes read as an unsigned big-endian integer) plus 65 raw signature
bytes.  The aggregation routine `SafeTransaction::sort_and_join_sigs`
lives in `src/safe.rs`, which is not among the sources. -/
structure SigRecord where
  signer : Nat
  sig : List Nat
deriving DecidableEq

/-- Ordering of signature records by signer address. -/
def sigLE (a b : SigRecord) : Prop := a.signer ≤ b.signer

instance : DecidableRel sigLE := fun a b => Nat.decLe a.signer b.signer

instance : IsTotal SigRecord sigLE := ⟨fun a b => Nat.le_total a.signer b.signer⟩

instance : IsTrans SigRecord sigLE := ⟨fun _ _ _ => Nat.le_trans⟩

/-- Strict version of the record ordering (used only in proofs). -/
def sigLT (a b : SigRecord) : Prop := a.signer < b.signer

instance : IsAntisymm SigRecord sigLT :=
  ⟨fun a b h1 h2 => absurd (Nat.lt_trans h1 h2) (Nat.lt_irrefl a.signer)⟩

/-- Modelled from the spec: `combine` (§4.4) — sort the records by signer
address ascending and concatenate the raw signature bytes in that order. -/
def combine (records : List SigRecord) : List Nat :=
  ((List.insertionSort sigLE records).map (fun r => r.sig)).flatten

/-! ### Endpoint URLs and the fixed chain (`src/api/client.rs`) -/

/-- The constant `_BASE_URL` of `src/api/client.rs` (mainnet only). -/
def baseUrl : String := "https://safe-transaction-mainnet.safe.global/api/"

/-- URL of `SafeClient::safe_info` (`BASE_URL.join("v1/safes/{addr}/")`,
the address displayed in checksum form). -/
def safeInfoUrl (addr : List Nat) : String :=
  baseUrl ++ ("v1/safes/" ++ String.mk (toChecksum addr) ++ "/")

/-- URL of `SafeClient::propose`. -/
def proposeUrl (addr : List Nat) : String :=
  baseUrl ++ ("v1/safes/" ++ String.mk (toChecksum addr) ++ "/multisig-transactions/")

/-- URL of the filtered transaction list fetched by `SafeClient::pending`. -/
def pendingUrl (addr : List Nat) (bound : Nat) : String :=
  baseUrl ++ ("v1/safes/" ++ String.mk (toChecksum addr) ++
    "/multisig-transactions/?nonce__gte=" ++ toString bound)

/-- The request URLs issued by each public client operation (`pending`
re-fetches the safe info first; `next_nonce` runs `safe_info` then
`pending`). -/
def requestUrlsFor : ClientOp → List Nat → Nat → List String
  | .mkBuilder, _, _ => []
  | .safeInfo, a, _ => [safeInfoUrl a]
  | .proposeTx, a, _ => [proposeUrl a]
  | .pendingTxs, a, b => [safeInfoUrl a, pendingUrl a b]
  | .nextNonceOp, a, b => [safeInfoUrl a, safeInfoUrl a, pendingUrl a b]

/-! ### Lemmas about the hex codec -/

theorem hexDigitVal_hexCharLower {n : Nat} (h : n < 16) :
    hexDigitVal (hexCharLower n) = some n := by
  interval_cases n <;> decide

theorem isLowerHexDigit_hexCharLower {n : Nat} (h : n < 16) :
    isLowerHexDigit (hexCharLower n) := by
  interval_cases n <;> decide

theorem bytesToHex_cons (b : Nat) (bs : List Nat) :
    bytesToHex (b :: bs) = hexCharLower (b / 16) :: hexCharLower (b % 16) :: bytesToHex bs := rfl

theorem hexPairsToBytes_bytesToHex : ∀ {bs : List Nat}, (∀ b ∈ bs, b < 256) →
    hexPairsToBytes (bytesToHex bs) = some bs
  | [], _ => rfl
  | b :: bs, h => by
    have hb : b < 256 := h b (List.mem_cons_self b bs)
    have hhi : b / 16 < 16 := Nat.div_lt_of_lt_mul (by omega)
    have hlo : b % 16 < 16 := Nat.mod_lt b (by omega)
    have ih := hexPairsToBytes_bytesToHex (fun x hx => h x (List.mem_cons_of_mem b hx))
    rw [bytesToHex_cons]
    simp only [hexPairsToBytes, hexDigitVal_hexCharLower hhi,
      hexDigitVal_hexCharLower hlo, ih, Option.bind_eq_bind, Option.some_bind]
    rw [Nat.div_add_mod]
    rfl

theorem hexPairsToBytes_isSome_bound : ∀ {s : List Char} {bs : List Nat},
    hexPairsToBytes s = some bs → bs.length = s.length / 2 ∧ ∀ b ∈ bs, b < 256
  | [], bs, h => by
    cases h; exact ⟨rfl, by simp⟩
  | [c], bs, h => by cases h
  | c1 :: c2 :: rest, bs, h => by
    simp only [hexPairsToBytes, Option.bind_eq_bind, Option.bind_eq_some] at h
    obtain ⟨hi, hhi, lo, hlo, tl, htl, hb⟩ := h
    cases hb
    obtain ⟨hlen, hbound⟩ := hexPairsToBytes_isSome_bound htl
    have hhi16 : hi < 16 := by
      simp only [hexDigitVal] at hhi
      split at hhi <;> [skip; split at hhi] <;> [skip; skip; split at hhi] <;>
        first | (cases hhi; omega) | cases hhi
    have hlo16 : lo < 16 := by
      simp only [hexDigitVal] at hlo
      split at hlo <;> [skip; split at hlo] <;> [skip; skip; split at hlo] <;>
        first | (cases hlo; omega) | cases hlo
    constructor
    · simp only [List.length_cons, hlen]
      omega
    · intro b hb
      rcases List.mem_cons.mp hb with h | h
      · omega
      · exact hbound b h

theorem hexPairsToBytes_badChar : ∀ {s : List Char}, (∃ c ∈ s, hexDigitVal c = none) →
    hexPairsToBytes s = none
  | [], h => by simp at h
  | [c], _ => rfl
  | c1 :: c2 :: rest, h => by
    obtain ⟨c, hc, hval⟩ := h
    rcases List.mem_cons.mp hc with rfl | hc
    · simp [hexPairsToBytes, hval]
    rcases List.mem_cons.mp hc with rfl | hc
    · cases hv1 : hexDigitVal c1 <;> simp [hexPairsToBytes, hv1, hval]
    · have ih := hexPairsToBytes_badChar ⟨c, hc, hval⟩
      cases hv1 : hexDigitVal c1 <;> cases hv2 : hexDigitVal c2 <;>
        simp [hexPairsToBytes, hv1, hv2, ih]

theorem bytesToHex_length (bs : List Nat) : (bytesToHex bs).length = 2 * bs.length := by
  induction bs with
  | nil => rfl
  | cons b bs ih =>
    rw [bytesToHex_cons]
    simp only [List.length_cons, ih]
    omega

theorem bytesToHex_mem {bs : List Nat} (h : ∀ b ∈ bs, b < 256) :
    ∀ c ∈ bytesToHex bs, isLowerHexDigit c := by
  induction bs with
  | nil => simp [bytesToHex]
  | cons b bs ih =>
    intro c hc
    have hb : b < 256 := h b (List.mem_cons_self b bs)
    have hhi : b / 16 < 16 := Nat.div_lt_of_lt_mul (by omega)
    have hlo : b % 16 < 16 := Nat.mod_lt b (by omega)
    rw [bytesToHex_cons] at hc
    rcases List.mem_cons.mp hc with rfl | hc
    · exact isLowerHexDigit_hexCharLower hhi
    rcases List.mem_cons.mp hc with rfl | hc
    · exact isLowerHexDigit_hexCharLower hlo
    · exact ih (fun x hx => h x (List.mem_cons_of_mem b hx)) c hc

theorem strip0x_hexEncodeHash (h : List Nat) :
    strip0x (hexEncodeHash h) = bytesToHex h := rfl

/-- C8: serializing a 32-byte hash yields `0x` plus exactly 64 lowercase
hex digits; deserializing that string returns the identical bytes;
a successful deserialization always yields exactly 32 bytes; and
a payload containing a non-hex character always fails. -/
theorem c8_hash_codec :
    (∀ h : List Nat, h.length = 32 → (∀ b ∈ h, b < 256) →
      hexEncodeHash h = '0' :: 'x' :: bytesToHex h ∧
      (bytesToHex h).length = 64 ∧
      (∀ c ∈ bytesToHex h, isLowerHexDigit c) ∧
      hexDecodeHash (hexEncodeHash h) = some h) ∧
    (∀ (s : List Char) (b : List Nat), hexDecodeHash s = some b →
      b.length = 32 ∧ ∀ x ∈ b, x < 256) ∧
    (∀ s : List Char, (∃ c ∈ strip0x s, hexDigitVal c = none) →
      hexDecodeHash s = none) := by
  refine ⟨?_, ?_, ?_⟩
  · intro h hlen hb
    refine ⟨rfl, by rw [bytesToHex_length, hlen], bytesToHex_mem hb, ?_⟩
    simp [hexDecodeHash, strip0x_hexEncodeHash, hexPairsToBytes_bytesToHex hb, hlen]
  · intro s b h
    simp only [hexDecodeHash, Option.bind_eq_bind, Option.bind_eq_some] at h
    obtain ⟨bs, hbs, hif⟩ := h
    obtain ⟨_, hbound⟩ := hexPairsToBytes_isSome_bound hbs
    split at hif
    · cases hif
      next hl => exact ⟨hl, hbound⟩
    · cases hif
  · intro s h
    simp [hexDecodeHash, hexPairsToBytes_badChar h]

/-- Witness for C8: the all-zero 32-byte hash round-trips, and a payload
with a non-hex character (`zz…`) is rejected. -/
theorem c8_hash_codec_witness :
    hexDecodeHash (hexEncodeHash (List.replicate 32 0)) = some (List.replicate 32 0) ∧
    hexDecodeHash ('0' :: 'x' :: List.replicate 64 'z') = none := by
  obtain ⟨h1, _, h3⟩ := c8_hash_codec
  refine ⟨(h1 (List.replicate 32 0) (by decide) (by decide)).2.2.2, ?_⟩
  exact h3 _ ⟨'z', by decide, by decide⟩

/-! ### Lemmas about keccak state sizes -/

theorem keccakRound_length (st : List Nat) (rc : Nat) : (keccakRound st rc).length = 25 := by
  simp [keccakRound, iotaStep, chi]

theorem foldl_keccakRound_length :
    ∀ (cs : List Nat) (st : List Nat), st.length = 25 →
      (List.foldl keccakRound st cs).length = 25
  | [], _, h => h
  | c :: cs, st, _ =>
    foldl_keccakRound_length cs (keccakRound st c) (keccakRound_length st c)

theorem xorBlock_length (st block : List Nat) : (xorBlock st block).length = 25 := by
  simp [xorBlock]

theorem foldl_absorb_length :
    ∀ (blocks : List (List Nat)) (st : List Nat), st.length = 25 →
      (blocks.foldl (fun st block => keccakF (xorBlock st block)) st).length = 25
  | [], _, h => h
  | b :: bs, st, _ =>
    foldl_absorb_length bs _ (foldl_keccakRound_length _ _ (xorBlock_length st b))

theorem keccakAbsorb_length (blocks : List (List Nat)) : (keccakAbsorb blocks).length = 25 :=
  foldl_absorb_length blocks initState (by simp [initState])

theorem flatten_laneToBytes_length (l : List Nat) :
    ((l.map laneToBytes).flatten).length = 8 * l.length := by
  induction l with
  | nil => rfl
  | cons v l ih =>
    simp only [List.map_cons, List.flatten_cons, List.length_append, ih, List.length_cons]
    simp [laneToBytes]
    omega

theorem keccak256_length (msg : List Nat) : (keccak256 msg).length = 32 := by
  rw [keccak256, List.length_take, flatten_laneToBytes_length, keccakAbsorb_length]
  omega

theorem hashNibbles_length (bs : List Nat) : (hashNibbles bs).length = 2 * bs.length := by
  induction bs with
  | nil => rfl
  | cons b bs ih =>
    simp only [hashNibbles, List.map_cons, List.flatten_cons] at ih ⊢
    simp only [List.length_append, List.length_cons, List.length_nil, ih]
    omega

/-! ### Lemmas about checksummed addresses -/

theorem hexDigitVal_upper {n : Nat} (h : n < 16) :
    hexDigitVal (toUpperHexChar (hexCharLower n)) = some n := by
  interval_cases n <;> decide

theorem hexDigitVal_flip_lower {n : Nat} (h : n < 16) :
    hexDigitVal (flipCase (hexCharLower n)) = some n := by
  interval_cases n <;> decide

theorem hexDigitVal_flip_upper {n : Nat} (h : n < 16) :
    hexDigitVal (flipCase (toUpperHexChar (hexCharLower n))) = some n := by
  interval_cases n <;> decide

theorem flipCase_ne_lower {n : Nat} (h10 : 10 ≤ n) (h : n < 16) :
    flipCase (hexCharLower n) ≠ hexCharLower n := by
  interval_cases n <;> decide

theorem flipCase_ne_upper {n : Nat} (h10 : 10 ≤ n) (h : n < 16) :
    flipCase (toUpperHexChar (hexCharLower n)) ≠ toUpperHexChar (hexCharLower n) := by
  interval_cases n <;> decide

theorem bytesToHex_shape {bs : List Nat} (h : ∀ b ∈ bs, b < 256) :
    ∀ c ∈ bytesToHex bs, ∃ n, n < 16 ∧ c = hexCharLower n := by
  induction bs with
  | nil => simp [bytesToHex]
  | cons b bs ih =>
    intro c hc
    have hb : b < 256 := h b (List.mem_cons_self b bs)
    rw [bytesToHex_cons] at hc
    rcases List.mem_cons.mp hc with rfl | hc
    · exact ⟨b / 16, Nat.div_lt_of_lt_mul (by omega), rfl⟩
    rcases List.mem_cons.mp hc with rfl | hc
    · exact ⟨b % 16, Nat.mod_lt b (by omega), rfl⟩
    · exact ih (fun x hx => h x (List.mem_cons_of_mem b hx)) c hc

theorem hexDigitVal_chkCase {c : Char} (hc : ∃ n, n < 16 ∧ c = hexCharLower n) (h' : Nat) :
    hexDigitVal (chkCase c h') = hexDigitVal c := by
  obtain ⟨n, hn, rfl⟩ := hc
  unfold chkCase
  by_cases h8 : 8 ≤ h'
  · rw [if_pos h8, hexDigitVal_upper hn, hexDigitVal_hexCharLower hn]
  · rw [if_neg h8]

theorem hexDigitVal_flip_chkCase {c : Char} (hc : ∃ n, n < 16 ∧ c = hexCharLower n) (h' : Nat) :
    hexDigitVal (flipCase (chkCase c h')) = hexDigitVal c := by
  obtain ⟨n, hn, rfl⟩ := hc
  unfold chkCase
  by_cases h8 : 8 ≤ h'
  · rw [if_pos h8, hexDigitVal_flip_upper hn, hexDigitVal_hexCharLower hn]
  · rw [if_neg h8, hexDigitVal_flip_lower hn, hexDigitVal_hexCharLower hn]

theorem hexPairsToBytes_congr : ∀ {s t : List Char},
    List.Forall₂ (fun a b => hexDigitVal a = hexDigitVal b) s t →
    hexPairsToBytes s = hexPairsToBytes t
  | [], [], _ => rfl
  | [c1], t, h => by
    rcases h with _ | ⟨h1, h2⟩
    rcases h2
    rfl
  | c1 :: c2 :: s, t, h => by
    rcases h with _ | ⟨h1, h2⟩
    rcases h2 with _ | ⟨h12, h3⟩
    simp only [hexPairsToBytes, h1, h12, hexPairsToBytes_congr h3]

theorem decode_of_valMatch {addr : List Nat} (h20 : addr.length = 20)
    (hb : ∀ b ∈ addr, b < 256) {p : List Char}
    (hm : List.Forall₂ (fun a b => hexDigitVal a = hexDigitVal b) p (bytesToHex addr)) :
    decodeAddress ('0' :: 'x' :: p) = some addr := by
  simp only [decodeAddress, hexPairsToBytes_congr hm, hexPairsToBytes_bytesToHex hb,
    Option.bind_eq_bind, Option.some_bind, h20]
  simp

theorem zipWith_chkCase_valMatch {bs : List Nat} (hb : ∀ b ∈ bs, b < 256)
    (nibs : List Nat) (hlen : 2 * bs.length ≤ nibs.length) :
    List.Forall₂ (fun a b => hexDigitVal a = hexDigitVal b)
      (List.zipWith chkCase (bytesToHex bs) nibs) (bytesToHex bs) := by
  rw [List.forall₂_iff_get]
  refine ⟨by rw [List.length_zipWith, bytesToHex_length]; omega, ?_⟩
  intro i h1 h2
  rw [List.get_eq_getElem, List.get_eq_getElem, List.getElem_zipWith]
  exact hexDigitVal_chkCase (bytesToHex_shape hb _ (List.getElem_mem _)) _

theorem zipWith_chkCase_flip_valMatch {bs : List Nat} (hb : ∀ b ∈ bs, b < 256)
    (nibs : List Nat) (hlen : 2 * bs.length ≤ nibs.length) (j : Nat) :
    List.Forall₂ (fun a b => hexDigitVal a = hexDigitVal b)
      ((List.zipWith chkCase (bytesToHex bs) nibs).set j
        (flipCase ((List.zipWith chkCase (bytesToHex bs) nibs).getD j ' ')))
      (bytesToHex bs) := by
  by_cases hj : j < (List.zipWith chkCase (bytesToHex bs) nibs).length
  · rw [List.forall₂_iff_get]
    refine ⟨by simp only [List.length_set, List.length_zipWith, bytesToHex_length]; omega, ?_⟩
    intro i h1 h2
    rw [List.get_eq_getElem, List.get_eq_getElem]
    by_cases hij : j = i
    · subst hij
      rw [List.getElem_set_self]
      have hg : (List.zipWith chkCase (bytesToHex bs) nibs).getD j ' ' =
          (List.zipWith chkCase (bytesToHex bs) nibs).get ⟨j, hj⟩ := by
        rw [List.getD_eq_getElem?_getD, List.getElem?_eq_getElem hj]
        rfl
      rw [hg, List.get_eq_getElem]
      simp only [List.getElem_zipWith]
      exact hexDigitVal_flip_chkCase (bytesToHex_shape hb _ (List.getElem_mem _)) _
    · rw [List.getElem_set_ne hij]
      simp only [List.getElem_zipWith]
      exact hexDigitVal_chkCase (bytesToHex_shape hb _ (List.getElem_mem _)) _
  · rw [List.set_eq_of_length_le (Nat.le_of_not_lt hj)]
    exact zipWith_chkCase_valMatch hb nibs hlen

theorem nibs_long (addr : List Nat) (h20 : addr.length = 20) :
    2 * addr.length ≤ (hashNibbles (keccak256 ((bytesToHex addr).map Char.toNat))).length := by
  rw [hashNibbles_length, keccak256_length, h20]
  omega

theorem flipCaseAt_checksum (addr : List Nat) (j : Nat) :
    flipCaseAt (j + 2) (toChecksum addr) =
      '0' :: 'x' ::
        ((List.zipWith chkCase (bytesToHex addr)
            (hashNibbles (keccak256 ((bytesToHex addr).map Char.toNat)))).set j
          (flipCase ((List.zipWith chkCase (bytesToHex addr)
            (hashNibbles (keccak256 ((bytesToHex addr).map Char.toNat)))).getD j ' '))) := by
  simp [flipCaseAt, toChecksum]


/-- C7 (amended): encoding a 20-byte address to checksummed form and
decoding it back yields the identical bytes, and decoding performs no
checksum validation at all: flipping the case of any character of the
hex payload still decodes to the same 20 bytes (there is no bypass switch;
validation is simply absent from `Address::deserialize`). -/
theorem c7_checksum_decode (addr : List Nat) (h20 : addr.length = 20)
    (hb : ∀ b ∈ addr, b < 256) :
    decodeAddress (toChecksum addr) = some addr ∧
    ∀ i, 2 ≤ i → decodeAddress (flipCaseAt i (toChecksum addr)) = some addr := by
  have hlen := nibs_long addr h20
  constructor
  · exact decode_of_valMatch h20 hb (zipWith_chkCase_valMatch hb _ hlen)
  · intro i hi
    obtain ⟨j, rfl⟩ := Nat.exists_eq_add_of_le hi
    rw [Nat.add_comm 2 j, flipCaseAt_checksum]
    exact decode_of_valMatch h20 hb (zipWith_chkCase_flip_valMatch hb _ hlen j)

/-- Witness for the amended C7 at the fixture address: round-trip, and a
decode of the string with the third character's case flipped. -/
theorem c7_checksum_decode_witness :
    decodeAddress (toChecksum caddr) = some caddr ∧
    decodeAddress (flipCaseAt 2 (toChecksum caddr)) = some caddr := by
  have h := c7_checksum_decode caddr (by decide) (by decide)
  exact ⟨h.1, h.2 2 (by decide)⟩

/-- Counterexample to C7 as stated: flipping the case of the first hex
character of `to_checksum(0xaa00…00)` produces a different string, yet
decoding it succeeds and returns the very same address — checksum
validation does not fail, and no explicit bypass is involved. -/
theorem c7_checksum_counterexample :
    flipCaseAt 2 (toChecksum caddr) ≠ toChecksum caddr ∧
    decodeAddress (flipCaseAt 2 (toChecksum caddr)) = some caddr := by
  constructor
  · intro heq
    have h64 : (hashNibbles (keccak256 ((bytesToHex caddr).map Char.toNat))).length = 64 := by
      rw [hashNibbles_length, keccak256_length]
    obtain ⟨n0, rest, hns⟩ :
        ∃ n0 rest, hashNibbles (keccak256 ((bytesToHex caddr).map Char.toNat)) =
          n0 :: rest := by
      cases hcase : hashNibbles (keccak256 ((bytesToHex caddr).map Char.toNat)) with
      | nil => rw [hcase] at h64; simp at h64
      | cons a l => exact ⟨a, l, rfl⟩
    have hbh : bytesToHex caddr =
        hexCharLower 10 :: hexCharLower 10 :: bytesToHex (List.replicate 19 0) := rfl
    rw [toChecksum] at heq
    rw [hns, hbh] at heq
    simp only [List.zipWith_cons_cons, flipCaseAt, List.set_cons_succ, List.set_cons_zero,
      List.getD_cons_succ, List.getD_cons_zero, List.cons.injEq, and_true, true_and] at heq
    by_cases h8 : 8 ≤ n0
    · rw [chkCase, if_pos h8] at heq
      exact @flipCase_ne_upper 10 (by decide) (by decide) heq
    · rw [chkCase, if_neg h8] at heq
      exact @flipCase_ne_lower 10 (by decide) (by decide) heq
  · have h := @decode_of_valMatch caddr (by decide) (by decide) _
      (zipWith_chkCase_flip_valMatch (by decide) _ (nibs_long caddr (by decide)) 0)
    exact h

/-! ### Lemmas about nonce seeding and allocation -/

theorem le_maxOf {x : Nat} : ∀ {l : List Nat}, x ∈ l → x ≤ maxOf l
  | a :: l, h => by
    rcases List.mem_cons.mp h with h | h
    · exact h ▸ Nat.le_max_left a (maxOf l)
    · exact Nat.le_trans (le_maxOf h) (Nat.le_max_right a (maxOf l))

theorem newClient_ok (svc : ServiceState) :
    newClient true true svc = .ok ⟨nextNonceOf svc⟩ := by
  by_cases h : pendingOf svc = [] <;>
    simp only [newClient, nextNonceFetch, pendingFetch, safeInfoFetch, nextNonceOf,
      pendingOf, if_true, bind, Except.bind, pure, Except.pure] at h ⊢ <;>
    simp [h]

theorem mem_pendingOf_le {svc : ServiceState} {n : Nat} (h : n ∈ pendingOf svc) :
    svc.nonce ≤ n := by
  have := List.mem_filter.mp h
  simpa using this.2

theorem allocRun_spec : ∀ (n c : Nat), c + n < U64LIM →
    (allocRun c n).1 = List.range' c n ∧ (allocRun c n).2 = c + n
  | 0, c, _ => ⟨rfl, rfl⟩
  | n + 1, c, h => by
    have h1 : (c + 1) % U64LIM = c + 1 := Nat.mod_eq_of_lt (by omega)
    have ih := allocRun_spec n (c + 1) (by omega)
    simp only [allocRun, fetchAddOne, h1, List.range'_succ]
    exact ⟨by rw [ih.1], by rw [ih.2]; omega⟩

/-- C1: on initialization the nonce counter is seeded to
`max(service-reported nonce, 1 + max(pending nonces))`: with a non-empty
pending list the seed is `1 + max(pending)` (which coincides with the
`max` formula because the service filters pending transactions to
`nonce ≥ reported`), and with an empty pending list it is the
service-reported nonce. -/
theorem c1_allocator_seeding (svc : ServiceState) :
    (pendingOf svc = [] → newClient true true svc = .ok ⟨svc.nonce⟩) ∧
    (pendingOf svc ≠ [] →
      newClient true true svc = .ok ⟨maxOf (pendingOf svc) + 1⟩ ∧
      newClient true true svc = .ok ⟨max svc.nonce (maxOf (pendingOf svc) + 1)⟩) := by
  have hok := newClient_ok svc
  constructor
  · intro h
    rwa [nextNonceOf, if_pos h] at hok
  · intro h
    have h1 : newClient true true svc = .ok ⟨maxOf (pendingOf svc) + 1⟩ := by
      rwa [nextNonceOf, if_neg h] at hok
    refine ⟨h1, ?_⟩
    obtain ⟨x, hx⟩ := List.exists_mem_of_ne_nil _ h
    have hle : svc.nonce ≤ maxOf (pendingOf svc) :=
      Nat.le_trans (mem_pendingOf_le hx) (le_maxOf hx)
    rw [Nat.max_eq_right (Nat.le_succ_of_le hle)]
    exact h1

/-- Witness for C1 at the spec's fixtures: reported nonce 5 with pending
nonces `{5, 6, 8}` seeds to 9, and reported nonce 3 with no pending
transactions seeds to 3. -/
theorem c1_allocator_seeding_witness :
    newClient true true ⟨5, [5, 6, 8]⟩ = .ok ⟨9⟩ ∧
    newClient true true ⟨3, []⟩ = .ok ⟨3⟩ := by
  refine ⟨?_, (c1_allocator_seeding ⟨3, []⟩).1 rfl⟩
  have h := ((c1_allocator_seeding ⟨5, [5, 6, 8]⟩).2 (by decide)).1
  exact h

/-- C3: `safe_tx_builder` hands the current counter value to the builder
and bumps the counter by exactly one; `n` successive allocations starting
at counter `c` return exactly the contiguous strictly-increasing run
`c, c+1, …, c+n-1` and leave the counter at `c+n`; no client operation
ever decreases the counter. -/
theorem c3_allocation_invariant :
    (∀ (addr : List Nat) (c : Nat), c + 1 < U64LIM →
      (safeTxBuilder addr c).1.nonce = c ∧ (safeTxBuilder addr c).2 = c + 1) ∧
    (∀ (c n : Nat), c + n < U64LIM →
      (allocRun c n).1 = List.range' c n ∧ (allocRun c n).2 = c + n ∧
      (allocRun c n).1.Pairwise (· < ·) ∧ (allocRun c n).1.Nodup) ∧
    (∀ (op : ClientOp) (c : Nat), c + 1 < U64LIM → c ≤ counterAfter op c) := by
  refine ⟨?_, ?_, ?_⟩
  · intro addr c h
    exact ⟨rfl, by simp [safeTxBuilder, fetchAddOne, Nat.mod_eq_of_lt h]⟩
  · intro c n h
    obtain ⟨h1, h2⟩ := allocRun_spec n c h
    exact ⟨h1, h2, h1 ▸ List.pairwise_lt_range' c n, h1 ▸ List.nodup_range' c n⟩
  · intro op c h
    cases op <;> simp [counterAfter, Nat.mod_eq_of_lt h]

/-- Witness for C3: three allocations from seed 5 return `[5, 6, 7]` and
leave the counter at 8; a builder at counter 5 carries nonce 5. -/
theorem c3_allocation_invariant_witness :
    (safeTxBuilder [] 5).1.nonce = 5 ∧ (safeTxBuilder [] 5).2 = 6 ∧
    (allocRun 5 3).1 = [5, 6, 7] ∧ (allocRun 5 3).2 = 8 := by
  obtain ⟨hb, ha, _⟩ := c3_allocation_invariant
  obtain ⟨hb1, hb2⟩ := hb [] 5 (by decide)
  obtain ⟨ha1, ha2, _, _⟩ := ha 5 3 (by decide)
  exact ⟨hb1, hb2, by rw [ha1]; rfl, ha2⟩

/-- C9: client construction runs the metadata fetch and the pending fetch
as sequential prerequisites; if either fails construction returns an error
and no client value is produced, and on success the produced client's
counter is the computed next nonce. -/
theorem c9_init_atomicity (svc : ServiceState) :
    (∀ pendOk, newClient false pendOk svc = .error .infoFailed) ∧
    newClient true false svc = .error .pendingFailed ∧
    newClient true true svc = .ok ⟨nextNonceOf svc⟩ ∧
    (∀ infoOk pendOk st, newClient infoOk pendOk svc = .ok st →
      infoOk = true ∧ pendOk = true ∧ st = ⟨nextNonceOf svc⟩) := by
  refine ⟨fun pendOk => rfl, rfl, newClient_ok svc, ?_⟩
  intro infoOk pendOk st h
  cases infoOk
  · exact absurd h (by simp [newClient, nextNonceFetch, pendingFetch, safeInfoFetch,
      bind, Except.bind])
  · cases pendOk
    · exact absurd h (by simp [newClient, nextNonceFetch, pendingFetch, safeInfoFetch,
        bind, Except.bind])
    · rw [newClient_ok svc] at h
      cases h
      exact ⟨rfl, rfl, rfl⟩

/-- Witness for C9 at a concrete service state: failed metadata fetch and
failed pending fetch each abort construction; the successful path yields
the seeded client. -/
theorem c9_init_atomicity_witness :
    newClient false true ⟨7, [9]⟩ = .error .infoFailed ∧
    newClient true false ⟨7, [9]⟩ = .error .pendingFailed ∧
    newClient true true ⟨7, [9]⟩ = .ok ⟨10⟩ := by
  obtain ⟨h1, h2, h3, _⟩ := c9_init_atomicity ⟨7, [9]⟩
  exact ⟨h1 true, h2, h3⟩

/-! ### Wire encoding of large integers (claim C2) -/

/-- C2 (amended): in the serialized `ProposeRequest` the `value`,
`safeTxGas`, `baseGas`, `gasPrice` and `nonce` fields are rendered as JSON
numbers carrying the `u128` values — not as decimal strings; the
`DecimalU256` wrapper that would render decimal strings exists in
`src/api/wrappers.rs` but is not used by `ProposeRequest`. -/
theorem c2_wire_numbers (r : ProposeRequest) :
    List.lookup "value" (serializeProposeRequest r) = some (.num r.value) ∧
    List.lookup "safeTxGas" (serializeProposeRequest r) = some (.num r.safeTxGas) ∧
    List.lookup "baseGas" (serializeProposeRequest r) = some (.num r.baseGas) ∧
    List.lookup "gasPrice" (serializeProposeRequest r) = some (.num r.gasPrice) ∧
    List.lookup "nonce" (serializeProposeRequest r) = some (.num r.nonce) :=
  ⟨rfl, rfl, rfl, rfl, rfl⟩

/-- Counterexample to C2 as stated: in the JSON for the fixture request
(whose nonce is 7) the `nonce`, `value` and gas fields are JSON numbers —
in particular the nonce field is not the decimal string `"7"`. -/
theorem c2_wire_numbers_counterexample :
    List.lookup "nonce" (serializeProposeRequest r0) = some (.num 7) ∧
    List.lookup "nonce" (serializeProposeRequest r0) ≠ some (.str ['7']) ∧
    List.lookup "value" (serializeProposeRequest r0) = some (.num 1) ∧
    List.lookup "safeTxGas" (serializeProposeRequest r0) = some (.num 2) ∧
    List.lookup "baseGas" (serializeProposeRequest r0) = some (.num 3) ∧
    List.lookup "gasPrice" (serializeProposeRequest r0) = some (.num 4) :=
  ⟨rfl, by decide, rfl, rfl, rfl, rfl⟩

/-! ### Submission failure reporting (claim C4) -/

/-- C4 (amended): every non-success HTTP status makes `propose` return an
error and a success status returns `Ok(())`; but the error value is the
fixed message `"Unexpected response from server"`, identical for all
non-success responses — the status code and response body are only logged,
not carried in the error.  (No retry exists: the embedding consumes
exactly one response.) -/
theorem c4_submission_failure (resp : HttpResponse) :
    (isSuccessStatus resp.status = false →
      jsonPost resp = .error "Unexpected response from server") ∧
    (isSuccessStatus resp.status = true → jsonPost resp = .ok ()) ∧
    (∀ resp' : HttpResponse, isSuccessStatus resp.status = false →
      isSuccessStatus resp'.status = false → jsonPost resp = jsonPost resp') := by
  refine ⟨fun h => by simp [jsonPost, h], fun h => by simp [jsonPost, h], ?_⟩
  intro resp' h h'
  simp [jsonPost, h, h']

/-- Witness for C4 at concrete responses: a 422 is an error, a 201 is a
success, and a 422 and a 500 produce the very same error value. -/
theorem c4_submission_failure_witness :
    jsonPost ⟨422, "nonce already used"⟩ = .error "Unexpected response from server" ∧
    jsonPost ⟨201, "created"⟩ = .ok () ∧
    jsonPost ⟨422, "nonce already used"⟩ = jsonPost ⟨500, "server error"⟩ := by
  obtain ⟨h1, h2, h3⟩ := c4_submission_failure ⟨422, "nonce already used"⟩
  exact ⟨h1 rfl, (c4_submission_failure ⟨201, "created"⟩).2.1 rfl,
    h3 ⟨500, "server error"⟩ rfl rfl⟩

/-- Counterexample to C4 as stated: two non-success responses with
different status codes and different bodies map to the identical error
value (the constant message), so the error cannot carry the status code or
the body text. -/
theorem c4_submission_failure_counterexample :
    jsonPost ⟨422, "nonce conflict"⟩ = jsonPost ⟨500, "internal error"⟩ ∧
    jsonPost ⟨422, "nonce conflict"⟩ = .error "Unexpected response from server" :=
  ⟨rfl, rfl⟩

/-! ### 256-bit field preservation (claim C5) -/

/-- C5 (amended): the conversion of a signed payload into a
`ProposeRequest` carries the `value`, gas and `nonce` fields through
unchanged exactly when each of them fits in 128 bits; for any field at or
above `2^128` the `as_u128` call panics (modelled `none`), so the
conversion is not defined on the full 256-bit range. -/
theorem c5_field_preservation (p : SignedSafePayload) :
    (p.txValue < 2 ^ 128 → p.safeTxGas < 2 ^ 128 → p.baseGas < 2 ^ 128 →
      p.nonce < 2 ^ 128 → p.gasPrice < 2 ^ 128 →
      tryFromSigned p = some ⟨p.safeAddress, p.txTo, p.txValue, p.txCalldata.getD [],
        p.operation, p.gasToken, p.safeTxGas, p.baseGas, p.gasPrice, p.nonce,
        p.eip712Hash, p.sender, p.signature⟩) ∧
    ((2 ^ 128 ≤ p.txValue ∨ 2 ^ 128 ≤ p.safeTxGas ∨ 2 ^ 128 ≤ p.baseGas ∨
      2 ^ 128 ≤ p.nonce ∨ 2 ^ 128 ≤ p.gasPrice) → tryFromSigned p = none) := by
  constructor
  · intro h1 h2 h3 h4 h5
    simp only [tryFromSigned, asU128, Option.bind_eq_bind, if_pos h1, if_pos h2,
      if_pos h3, if_pos h4, if_pos h5, Option.some_bind]
    rfl
  · intro h
    simp only [tryFromSigned, asU128, Option.bind_eq_bind]
    by_cases h1 : p.txValue < 2 ^ 128
    · rw [if_pos h1]
      simp only [Option.some_bind]
      by_cases h2 : p.safeTxGas < 2 ^ 128
      · rw [if_pos h2]
        simp only [Option.some_bind]
        by_cases h3 : p.baseGas < 2 ^ 128
        · rw [if_pos h3]
          simp only [Option.some_bind]
          by_cases h4 : p.nonce < 2 ^ 128
          · rw [if_pos h4]
            simp only [Option.some_bind]
            by_cases h5 : p.gasPrice < 2 ^ 128
            · exfalso
              rcases h with h | h | h | h | h <;> omega
            · rw [if_neg h5]
              simp
          · rw [if_neg h4]
            simp
        · rw [if_neg h3]
          simp
      · rw [if_neg h2]
        simp
    · rw [if_neg h1]
      simp

/-- Witness for C5: a payload with small fields converts with every field
preserved, and the payload whose value is `2^128` makes the conversion
undefined. -/
theorem c5_field_preservation_witness :
    tryFromSigned ⟨List.replicate 20 0, 5, none, .CALL, 6, 7, 8, List.replicate 20 0,
        9, List.replicate 20 0, List.replicate 32 0, List.replicate 20 0, []⟩ =
      some ⟨List.replicate 20 0, List.replicate 20 0, 5, [], .CALL,
        List.replicate 20 0, 6, 7, 8, 9, List.replicate 32 0, List.replicate 20 0, []⟩ ∧
    tryFromSigned pBig = none := by
  constructor
  · exact (c5_field_preservation _).1 (by norm_num) (by norm_num) (by norm_num)
      (by norm_num) (by norm_num)
  · exact (c5_field_preservation pBig).2 (Or.inl (by norm_num [pBig]))

/-- Counterexample to C5 as stated: at the payload whose `value` field is
exactly `2^128` the conversion is undefined (the code's `as_u128`
panics), so it is not defined for all unsigned 256-bit values. -/
theorem c5_field_preservation_counterexample : tryFromSigned pBig = none := by
  norm_num [tryFromSigned, pBig, asU128]

/-! ### Signature aggregation (claim C6) -/

theorem map_sum_const_65 : ∀ {rs : List SigRecord}, (∀ r ∈ rs, r.sig.length = 65) →
    ((rs.map (fun r => r.sig.length)).sum) = 65 * rs.length
  | [], _ => rfl
  | r :: rs, h => by
    have hr : r.sig.length = 65 := h r (List.mem_cons_self r rs)
    have ih := map_sum_const_65 (fun x hx => h x (List.mem_cons_of_mem r hx))
    simp only [List.map_cons, List.sum_cons, ih, hr, List.length_cons]
    ring

theorem sorted_sigLT_of_nodup {l : List SigRecord} (hs : l.Sorted sigLE)
    (hnd : (l.map (fun r => r.signer)).Nodup) : l.Sorted sigLT := by
  have hne : l.Pairwise (fun a b => a.signer ≠ b.signer) := List.pairwise_map.mp hnd
  exact (hs.and hne).imp (fun h => Nat.lt_of_le_of_ne h.1 h.2)

/-- C6: aggregation sorts the records by signer address (as unsigned
big-endian integers) ascending and concatenates the 65-byte signatures, so
the output has length `65 * len(records)`, the signer order of the sorted
records is ascending, and for records with pairwise distinct signers the
output is identical for every permutation of the input. -/
theorem c6_signature_aggregation :
    (∀ rs : List SigRecord, (∀ r ∈ rs, r.sig.length = 65) →
      (combine rs).length = 65 * rs.length) ∧
    (∀ rs : List SigRecord,
      ((List.insertionSort sigLE rs).map (fun r => r.signer)).Sorted (· ≤ ·)) ∧
    (∀ rs rs' : List SigRecord, (rs.map (fun r => r.signer)).Nodup →
      rs.Perm rs' → combine rs = combine rs') := by
  refine ⟨?_, ?_, ?_⟩
  · intro rs h
    have hperm : (List.insertionSort sigLE rs).Perm rs := List.perm_insertionSort sigLE rs
    rw [combine, List.length_flatten, List.map_map]
    have hsum : ((List.insertionSort sigLE rs).map (fun r => r.sig.length)).sum =
        (rs.map (fun r => r.sig.length)).sum := (hperm.map _).sum_eq
    calc ((List.insertionSort sigLE rs).map (List.length ∘ fun r => r.sig)).sum
        = (rs.map (fun r => r.sig.length)).sum := hsum
      _ = 65 * rs.length := map_sum_const_65 h
  · intro rs
    exact List.pairwise_map.mpr (List.sorted_insertionSort sigLE rs)
  · intro rs rs' hnd hperm
    have hnd' : (rs'.map (fun r => r.signer)).Nodup := ((hperm.map _).nodup_iff).mp hnd
    have hp : (List.insertionSort sigLE rs).Perm (List.insertionSort sigLE rs') :=
      (List.perm_insertionSort sigLE rs).trans
        (hperm.trans (List.perm_insertionSort sigLE rs').symm)
    have hs1 : (List.insertionSort sigLE rs).Sorted sigLT :=
      sorted_sigLT_of_nodup (List.sorted_insertionSort sigLE rs)
        (((List.perm_insertionSort sigLE rs).map _).nodup_iff.mpr hnd)
    have hs2 : (List.insertionSort sigLE rs').Sorted sigLT :=
      sorted_sigLT_of_nodup (List.sorted_insertionSort sigLE rs')
        (((List.perm_insertionSort sigLE rs').map _).nodup_iff.mpr hnd')
    rw [combine, combine, List.eq_of_perm_of_sorted hp hs1 hs2]

/-- Witness for C6 at two concrete records: aggregation of the two-record
set is 130 bytes and is the same for both input orders. -/
theorem c6_signature_aggregation_witness :
    (combine [⟨2, List.replicate 65 1⟩, ⟨1, List.replicate 65 2⟩]).length = 130 ∧
    combine [⟨2, List.replicate 65 1⟩, ⟨1, List.replicate 65 2⟩] =
      combine [⟨1, List.replicate 65 2⟩, ⟨2, List.replicate 65 1⟩] := by
  obtain ⟨h1, _, h3⟩ := c6_signature_aggregation
  constructor
  · exact h1 [⟨2, List.replicate 65 1⟩, ⟨1, List.replicate 65 2⟩] (by decide)
  · exact h3 _ _ (by decide) (by decide)

/-! ### Mainnet-only client (claim C10) -/

/-- C10: the chain id seeded into every transaction builder is the
constant 1, and every request URL of every public client operation is the
fixed mainnet transaction-service base URL followed by a path — no other
chain or service endpoint is reachable. -/
theorem c10_mainnet_only :
    chainIdOf = 1 ∧
    (∀ (addr : List Nat) (c : Nat), (safeTxBuilder addr c).1.chainId = 1) ∧
    (∀ (op : ClientOp) (addr : List Nat) (bound : Nat),
      ∀ u ∈ requestUrlsFor op addr bound, ∃ rest, u = baseUrl ++ rest) := by
  refine ⟨rfl, fun _ _ => rfl, ?_⟩
  intro op addr bound u hu
  cases op with
  | mkBuilder => simp [requestUrlsFor] at hu
  | safeInfo =>
    rw [requestUrlsFor, List.mem_singleton] at hu
    exact ⟨_, hu⟩
  | proposeTx =>
    rw [requestUrlsFor, List.mem_singleton] at hu
    exact ⟨_, hu⟩
  | pendingTxs =>
    rw [requestUrlsFor] at hu
    rcases List.mem_cons.mp hu with rfl | hu
    · exact ⟨_, rfl⟩
    rcases List.mem_cons.mp hu with rfl | hu
    · exact ⟨_, rfl⟩
    · simp at hu
  | nextNonceOp =>
    rw [requestUrlsFor] at hu
    rcases List.mem_cons.mp hu with rfl | hu
    · exact ⟨_, rfl⟩
    rcases List.mem_cons.mp hu with rfl | hu
    · exact ⟨_, rfl⟩
    rcases List.mem_cons.mp hu with rfl | hu
    · exact ⟨_, rfl⟩
    · simp at hu

/-- Witness for C10 at a concrete address: the builder from counter 0
carries chain id 1 and the safe-info request URL extends the mainnet base
URL. -/
theorem c10_mainnet_only_witness :
    (safeTxBuilder (List.replicate 20 0) 0).1.chainId = 1 ∧
    ∃ rest, safeInfoUrl (List.replicate 20 0) = baseUrl ++ rest := by
  obtain ⟨_, h2, h3⟩ := c10_mainnet_only
  exact ⟨h2 (List.replicate 20 0) 0,
    h3 .safeInfo (List.replicate 20 0) 0 _ (List.mem_singleton.mpr rfl)⟩

end SafeSdk
